import Mathlib

/-!
Verification of the code-buddy pipeline (src/index.js).

The JavaScript source is shallowly embedded: JS strings are `List Char`,
JSON values (as handled by the runtime functions JSON.stringify and
JSON.parse, which src/index.js calls) are the inductive `JVal`, and the
file system, process arguments and the event-loop schedule are explicit
data.  Every definition mirrors the construct of src/index.js (or of the
JS runtime library) named in its doc comment.
-/

set_option synthInstance.maxHeartbeats 400000

namespace CodeBuddy

/-- JSON values as produced and consumed by the JavaScript runtime
functions JSON.stringify / JSON.parse used by src/index.js.  Numbers are
modelled as integers (no claim under verification involves fractional or
exponent-form numbers). -/
inductive JVal : Type where
  | jnull : JVal
  | jbool : Bool → JVal
  | jnum : Int → JVal
  | jstr : List Char → JVal
  | jarr : List JVal → JVal
  | jobj : List (List Char × JVal) → JVal

/-- Hexadecimal digit character (lowercase), as used by JSON.stringify
for control-character escapes. -/
def hexDigitChar (n : Nat) : Char :=
  if n < 10 then Char.ofNat (48 + n) else Char.ofNat (87 + n)

/-- Escape of one character inside a JSON string literal, as performed by
JSON.stringify: quote, backslash and the named control escapes, and
a \u00xx escape for the remaining control characters. -/
def escChar (c : Char) : List Char :=
  if c = '"' then ['\\', '"']
  else if c = '\\' then ['\\', '\\']
  else if c = '\n' then ['\\', 'n']
  else if c = '\r' then ['\\', 'r']
  else if c = '\t' then ['\\', 't']
  else if c = '\x08' then ['\\', 'b']
  else if c = '\x0c' then ['\\', 'f']
  else if c.toNat < 32 then
    ['\\', 'u', '0', '0', hexDigitChar (c.toNat / 16), hexDigitChar (c.toNat % 16)]
  else [c]

/-- Body of a JSON string literal: every character escaped. -/
def escStr (s : List Char) : List Char := s.flatMap escChar

/-- A complete JSON string literal, quotes included. -/
def printStr (s : List Char) : List Char := '"' :: escStr s ++ ['"']

mutual

/-- JSON.stringify on a `JVal` (compact form: stringify called with one
argument emits no whitespace, which is how src/index.js calls it). -/
def printVal : JVal → List Char
  | .jnull => ['n', 'u', 'l', 'l']
  | .jbool true => ['t', 'r', 'u', 'e']
  | .jbool false => ['f', 'a', 'l', 's', 'e']
  | .jnum n => (toString n).data
  | .jstr s => printStr s
  | .jarr l => '[' :: printElems l ++ [']']
  | .jobj m => '{' :: printMembers m ++ ['}']

/-- Comma-separated stringification of array elements. -/
def printElems : List JVal → List Char
  | [] => []
  | [v] => printVal v
  | v :: rest => printVal v ++ ',' :: printElems rest

/-- Comma-separated stringification of object members. -/
def printMembers : List (List Char × JVal) → List Char
  | [] => []
  | [(k, v)] => printStr k ++ ':' :: printVal v
  | (k, v) :: rest => printStr k ++ ':' :: printVal v ++ ',' :: printMembers rest

end

/-- JSON whitespace. -/
def isWs (c : Char) : Bool := c = ' ' || c = '\t' || c = '\n' || c = '\r'

/-- Drop leading JSON whitespace. -/
def skipWs : List Char → List Char
  | [] => []
  | c :: rest => if isWs c then skipWs rest else c :: rest

/-- Value of a hexadecimal digit character, if it is one. -/
def hexVal (c : Char) : Option Nat :=
  if '0' ≤ c ∧ c ≤ '9' then some (c.toNat - 48)
  else if 'a' ≤ c ∧ c ≤ 'f' then some (c.toNat - 87)
  else if 'A' ≤ c ∧ c ≤ 'F' then some (c.toNat - 55)
  else none

/-- Single-character escapes accepted after a backslash in a JSON string
(the \u form is handled separately). -/
def unescape (e : Char) : Option Char :=
  if e = '"' then some '"'
  else if e = '\\' then some '\\'
  else if e = '/' then some '/'
  else if e = 'b' then some '\x08'
  else if e = 'f' then some '\x0c'
  else if e = 'n' then some '\n'
  else if e = 'r' then some '\r'
  else if e = 't' then some '\t'
  else none

/-- Parse the body of a JSON string literal (the opening quote already
consumed), returning the decoded characters and the rest of the input.
Raw control characters are rejected, as JSON.parse rejects them. -/
def parseStrBody : List Char → Option (List Char × List Char)
  | [] => none
  | c :: rest =>
    if c = '"' then some ([], rest)
    else if c = '\\' then
      match rest with
      | [] => none
      | e :: r =>
        if e = 'u' then
          match r with
          | a :: b :: c2 :: d :: r2 =>
            match hexVal a, hexVal b, hexVal c2, hexVal d with
            | some ha, some hb, some hc, some hd =>
              (parseStrBody r2).map
                (fun p => (Char.ofNat (((ha * 16 + hb) * 16 + hc) * 16 + hd) :: p.1, p.2))
            | _, _, _, _ => none
          | _ => none
        else
          match unescape e with
          | some ch => (parseStrBody r).map (fun p => (ch :: p.1, p.2))
          | none => none
    else if c.toNat < 32 then none
    else (parseStrBody rest).map (fun p => (c :: p.1, p.2))

/-- Match a literal run of characters, returning the rest of the input. -/
def matchLit : List Char → List Char → Option (List Char)
  | [], s => some s
  | _ :: _, [] => none
  | c :: cs, x :: xs => if x = c then matchLit cs xs else none

/-- Longest leading run of decimal digits. -/
def takeDigits : List Char → (List Char × List Char)
  | [] => ([], [])
  | c :: rest =>
    if c.isDigit then
      let p := takeDigits rest
      (c :: p.1, p.2)
    else ([], c :: rest)

/-- Numeric value of a digit string. -/
def digitsToNat (l : List Char) : Nat := l.foldl (fun acc c => acc * 10 + (c.toNat - 48)) 0

mutual

/-- Recursive-descent JSON parser modelling JSON.parse, totalised by a
fuel parameter (the caller `jsonParse` supplies more fuel than any input
can consume, so fuel exhaustion never decides a result). -/
def parseVal : Nat → List Char → Option (JVal × List Char)
  | 0, _ => none
  | fuel + 1, s =>
    match skipWs s with
    | [] => none
    | c :: rest =>
      if c = '{' then parseObjBody fuel rest
      else if c = '[' then parseArrBody fuel rest
      else if c = '"' then (parseStrBody rest).map (fun p => (JVal.jstr p.1, p.2))
      else if c = 't' then (matchLit ['r', 'u', 'e'] rest).map (fun r => (JVal.jbool true, r))
      else if c = 'f' then
        (matchLit ['a', 'l', 's', 'e'] rest).map (fun r => (JVal.jbool false, r))
      else if c = 'n' then (matchLit ['u', 'l', 'l'] rest).map (fun r => (JVal.jnull, r))
      else if c = '-' then
        match takeDigits rest with
        | ([], _) => none
        | (ds, r) => some (JVal.jnum (-(digitsToNat ds : Int)), r)
      else if c.isDigit then
        match takeDigits (c :: rest) with
        | (ds, r) => some (JVal.jnum (digitsToNat ds), r)
      else none

/-- Parse what follows the opening brace of a JSON object. -/
def parseObjBody : Nat → List Char → Option (JVal × List Char)
  | 0, _ => none
  | fuel + 1, s =>
    match skipWs s with
    | [] => none
    | c :: rest =>
      if c = '}' then some (JVal.jobj [], rest)
      else (parseMembers fuel (c :: rest)).map (fun p => (JVal.jobj p.1, p.2))

/-- Parse one or more comma-separated object members up to and including
the closing brace. -/
def parseMembers : Nat → List Char → Option (List (List Char × JVal) × List Char)
  | 0, _ => none
  | fuel + 1, s =>
    match skipWs s with
    | [] => none
    | c :: rest =>
      if c = '"' then
        match parseStrBody rest with
        | none => none
        | some (key, r1) =>
          match skipWs r1 with
          | [] => none
          | c1 :: r2 =>
            if c1 = ':' then
              match parseVal fuel r2 with
              | none => none
              | some (v, r3) =>
                match skipWs r3 with
                | [] => none
                | c2 :: r4 =>
                  if c2 = ',' then
                    (parseMembers fuel r4).map (fun p => ((key, v) :: p.1, p.2))
                  else if c2 = '}' then some ([(key, v)], r4)
                  else none
            else none
      else none

/-- Parse what follows the opening bracket of a JSON array. -/
def parseArrBody : Nat → List Char → Option (JVal × List Char)
  | 0, _ => none
  | fuel + 1, s =>
    match skipWs s with
    | [] => none
    | c :: rest =>
      if c = ']' then some (JVal.jarr [], rest)
      else (parseElems fuel (c :: rest)).map (fun p => (JVal.jarr p.1, p.2))

/-- Parse one or more comma-separated array elements up to and including
the closing bracket. -/
def parseElems : Nat → List Char → Option (List JVal × List Char)
  | 0, _ => none
  | fuel + 1, s =>
    match parseVal fuel s with
    | none => none
    | some (v, r1) =>
      match skipWs r1 with
      | [] => none
      | c :: r2 =>
        if c = ',' then (parseElems fuel r2).map (fun p => (v :: p.1, p.2))
        else if c = ']' then some ([v], r2)
        else none

end

/-- JSON.parse: parse one value and require only whitespace to remain;
any failure is an exception in JS, modelled as `none`.  The fuel bound
3·length+3 exceeds the parser's possible recursion depth on its input
(every three nested calls consume at least one character). -/
def jsonParse (s : List Char) : Option JVal :=
  match parseVal (3 * s.length + 3) s with
  | some (v, rest) => if skipWs rest = [] then some v else none
  | none => none

mutual

/-- Values free of JSON numbers.  The FileSet payloads of the spec are
number-free; the printer-parser roundtrip is proved on this fragment. -/
def numFree : JVal → Bool
  | .jnull => true
  | .jbool _ => true
  | .jnum _ => false
  | .jstr _ => true
  | .jarr l => numFreeElems l
  | .jobj m => numFreeMembers m

/-- All elements number-free. -/
def numFreeElems : List JVal → Bool
  | [] => true
  | v :: r => numFree v && numFreeElems r

/-- All member values number-free. -/
def numFreeMembers : List (List Char × JVal) → Bool
  | [] => true
  | (_, v) :: r => numFree v && numFreeMembers r

end

mutual

/-- Fuel sufficient for `parseVal` to re-parse the printed form of a
value. -/
def fVal : JVal → Nat
  | .jnull => 1
  | .jbool _ => 1
  | .jnum _ => 1
  | .jstr _ => 1
  | .jarr l => 2 + fElems l
  | .jobj m => 2 + fMembers m

/-- Fuel sufficient for `parseElems` on printed elements. -/
def fElems : List JVal → Nat
  | [] => 1
  | v :: r => 1 + fVal v + fElems r

/-- Fuel sufficient for `parseMembers` on printed members. -/
def fMembers : List (List Char × JVal) → Nat
  | [] => 1
  | (_, v) :: r => 1 + fVal v + fMembers r

end

theorem skipWs_cons_of_not_ws {c : Char} (t : List Char) (h : isWs c = false) :
    skipWs (c :: t) = c :: t := by
  simp [skipWs, h]

theorem matchLit_self (lit rest : List Char) : matchLit lit (lit ++ rest) = some rest := by
  induction lit with
  | nil => simp [matchLit]
  | cons c cs ih => simp [matchLit, ih]

theorem hexVal_hexDigitChar {n : Nat} (h : n < 16) : hexVal (hexDigitChar n) = some n := by
  interval_cases n <;> decide

theorem parseStrBody_escStr (s : List Char) :
    ∀ rest, parseStrBody (escStr s ++ '"' :: rest) = some (s, rest) := by
  induction s with
  | nil =>
    intro rest
    have h : escStr [] = [] := by simp [escStr]
    rw [h, List.nil_append, parseStrBody.eq_def]
    simp +decide
  | cons c t ih =>
    intro rest
    have hesc : escStr (c :: t) = escChar c ++ escStr t := by simp [escStr]
    rw [hesc, List.append_assoc]
    by_cases h1 : c = '"'
    · subst h1; simp +decide [escChar]; rw [parseStrBody.eq_def]; simp +decide [unescape, ih]
    by_cases h2 : c = '\\'
    · subst h2; simp +decide [escChar]; rw [parseStrBody.eq_def]; simp +decide [unescape, ih]
    by_cases h3 : c = '\n'
    · subst h3; simp +decide [escChar]; rw [parseStrBody.eq_def]; simp +decide [unescape, ih]
    by_cases h4 : c = '\r'
    · subst h4; simp +decide [escChar]; rw [parseStrBody.eq_def]; simp +decide [unescape, ih]
    by_cases h5 : c = '\t'
    · subst h5; simp +decide [escChar]; rw [parseStrBody.eq_def]; simp +decide [unescape, ih]
    by_cases h6 : c = '\x08'
    · subst h6; simp +decide [escChar]; rw [parseStrBody.eq_def]; simp +decide [unescape, ih]
    by_cases h7 : c = '\x0c'
    · subst h7; simp +decide [escChar]; rw [parseStrBody.eq_def]; simp +decide [unescape, ih]
    by_cases h8 : c.toNat < 32
    · have hdiv : c.toNat / 16 < 16 := by omega
      have hmod : c.toNat % 16 < 16 := by omega
      have hesc2 : escChar c =
          ['\\', 'u', '0', '0', hexDigitChar (c.toNat / 16), hexDigitChar (c.toNat % 16)] := by
        simp [escChar, h1, h2, h3, h4, h5, h6, h7, h8]
      have h0 : hexVal '0' = some 0 := by decide
      rw [hesc2, parseStrBody.eq_def]
      simp +decide [h0, hexVal_hexDigitChar hdiv, hexVal_hexDigitChar hmod, ih]
      have hval : c.toNat / 16 * 16 + c.toNat % 16 = c.toNat := by omega
      rw [hval, Char.ofNat_toNat]
    · have hesc2 : escChar c = [c] := by simp [escChar, h1, h2, h3, h4, h5, h6, h7, h8]
      rw [hesc2, parseStrBody.eq_def]
      simp [h1, h2, h8, ih]

theorem fVal_pos (v : JVal) : 1 ≤ fVal v := by
  cases v <;> simp [fVal] <;> omega

theorem fElems_pos (l : List JVal) : 1 ≤ fElems l := by
  cases l with
  | nil => simp [fElems]
  | cons v r => simp [fElems]; omega

theorem fMembers_pos (m : List (List Char × JVal)) : 1 ≤ fMembers m := by
  cases m with
  | nil => simp [fMembers]
  | cons kv r => obtain ⟨k, v⟩ := kv; simp [fMembers]; omega

theorem printVal_head (v : JVal) (h : numFree v = true) :
    ∃ c t, printVal v = c :: t ∧ isWs c = false ∧ ¬c = ']' := by
  cases v with
  | jnull => exact ⟨'n', ['u', 'l', 'l'], by simp [printVal], by decide, by decide⟩
  | jbool b =>
    cases b with
    | false => exact ⟨'f', ['a', 'l', 's', 'e'], by simp [printVal], by decide, by decide⟩
    | true => exact ⟨'t', ['r', 'u', 'e'], by simp [printVal], by decide, by decide⟩
  | jnum n => simp [numFree] at h
  | jstr s => exact ⟨'"', escStr s ++ ['"'], by simp [printVal, printStr], by decide, by decide⟩
  | jarr l => exact ⟨'[', printElems l ++ [']'], by simp [printVal], by decide, by decide⟩
  | jobj m => exact ⟨'{', printMembers m ++ ['}'], by simp [printVal], by decide, by decide⟩

theorem parse_print_all (fuel : Nat) :
    (∀ v rest, numFree v = true → fVal v ≤ fuel →
      parseVal fuel (printVal v ++ rest) = some (v, rest)) ∧
    (∀ m rest, m ≠ [] → numFreeMembers m = true → fMembers m ≤ fuel →
      parseMembers fuel (printMembers m ++ '}' :: rest) = some (m, rest)) ∧
    (∀ l rest, l ≠ [] → numFreeElems l = true → fElems l ≤ fuel →
      parseElems fuel (printElems l ++ ']' :: rest) = some (l, rest)) := by
  induction fuel using Nat.strong_induction_on with
  | _ fuel IH =>
  refine ⟨?_, ?_, ?_⟩
  · intro v rest hnf hfv
    obtain ⟨f, rfl⟩ : ∃ f, fuel = f + 1 := ⟨fuel - 1, by have := fVal_pos v; omega⟩
    cases v with
    | jnull =>
      have h : printVal .jnull ++ rest = 'n' :: 'u' :: 'l' :: 'l' :: rest := by simp [printVal]
      rw [h, parseVal.eq_def]
      have hws : skipWs ('n' :: 'u' :: 'l' :: 'l' :: rest) = 'n' :: 'u' :: 'l' :: 'l' :: rest :=
        skipWs_cons_of_not_ws _ (by decide)
      have hm : matchLit ['u', 'l', 'l'] ('u' :: 'l' :: 'l' :: rest) = some rest :=
        matchLit_self _ _
      simp +decide [hws, hm]
    | jbool b =>
      cases b with
      | false =>
        have h : printVal (.jbool false) ++ rest = 'f' :: 'a' :: 'l' :: 's' :: 'e' :: rest := by
          simp [printVal]
        rw [h, parseVal.eq_def]
        have hws : skipWs ('f' :: 'a' :: 'l' :: 's' :: 'e' :: rest) =
            'f' :: 'a' :: 'l' :: 's' :: 'e' :: rest := skipWs_cons_of_not_ws _ (by decide)
        have hm : matchLit ['a', 'l', 's', 'e'] ('a' :: 'l' :: 's' :: 'e' :: rest) = some rest :=
          matchLit_self _ _
        simp +decide [hws, hm]
      | true =>
        have h : printVal (.jbool true) ++ rest = 't' :: 'r' :: 'u' :: 'e' :: rest := by
          simp [printVal]
        rw [h, parseVal.eq_def]
        have hws : skipWs ('t' :: 'r' :: 'u' :: 'e' :: rest) = 't' :: 'r' :: 'u' :: 'e' :: rest :=
          skipWs_cons_of_not_ws _ (by decide)
        have hm : matchLit ['r', 'u', 'e'] ('r' :: 'u' :: 'e' :: rest) = some rest :=
          matchLit_self _ _
        simp +decide [hws, hm]
    | jnum n => simp [numFree] at hnf
    | jstr s =>
      have h : printVal (.jstr s) ++ rest = '"' :: (escStr s ++ '"' :: rest) := by
        simp [printVal, printStr]
      rw [h, parseVal.eq_def]
      have hws : skipWs ('"' :: (escStr s ++ '"' :: rest)) = '"' :: (escStr s ++ '"' :: rest) :=
        skipWs_cons_of_not_ws _ (by decide)
      simp +decide [hws, parseStrBody_escStr]
    | jarr l =>
      have h : printVal (.jarr l) ++ rest = '[' :: (printElems l ++ ']' :: rest) := by
        simp [printVal]
      rw [h, parseVal.eq_def]
      have hws : skipWs ('[' :: (printElems l ++ ']' :: rest)) =
          '[' :: (printElems l ++ ']' :: rest) := skipWs_cons_of_not_ws _ (by decide)
      simp +decide [hws]
      have hnfe : numFreeElems l = true := by simpa [numFree] using hnf
      have hf : 1 + fElems l ≤ f := by simp [fVal] at hfv; omega
      obtain ⟨g, rfl⟩ : ∃ g, f = g + 1 := ⟨f - 1, by have := fElems_pos l; omega⟩
      rw [parseArrBody.eq_def]
      cases l with
      | nil =>
        have hws2 : skipWs (printElems [] ++ ']' :: rest) = ']' :: rest := by
          simp only [printElems, List.nil_append]
          exact skipWs_cons_of_not_ws _ (by decide)
        simp +decide [hws2]
      | cons v l2 =>
        have hv : numFree v = true := by simp [numFreeElems, Bool.and_eq_true] at hnfe; exact hnfe.1
        obtain ⟨c, t, hct, hcw, hcne⟩ := printVal_head v hv
        obtain ⟨X, hX⟩ : ∃ X, printElems (v :: l2) = printVal v ++ X := by
          cases l2 with
          | nil => exact ⟨[], by simp [printElems]⟩
          | cons a b => exact ⟨',' :: printElems (a :: b), by simp [printElems]⟩
        have hsplit : printElems (v :: l2) ++ ']' :: rest = c :: (t ++ (X ++ ']' :: rest)) := by
          rw [hX, hct]; simp
        rw [hsplit]
        have hws2 : skipWs (c :: (t ++ (X ++ ']' :: rest))) = c :: (t ++ (X ++ ']' :: rest)) :=
          skipWs_cons_of_not_ws _ hcw
        simp [hws2, hcne]
        rw [hsplit.symm]
        have hel := (IH g (by omega)).2.2 (v :: l2) rest (by simp) hnfe (by omega)
        rw [hel]
    | jobj m =>
      have h : printVal (.jobj m) ++ rest = '{' :: (printMembers m ++ '}' :: rest) := by
        simp [printVal]
      rw [h, parseVal.eq_def]
      have hws : skipWs ('{' :: (printMembers m ++ '}' :: rest)) =
          '{' :: (printMembers m ++ '}' :: rest) := skipWs_cons_of_not_ws _ (by decide)
      simp +decide [hws]
      have hnfm : numFreeMembers m = true := by simpa [numFree] using hnf
      have hf : 1 + fMembers m ≤ f := by simp [fVal] at hfv; omega
      obtain ⟨g, rfl⟩ : ∃ g, f = g + 1 := ⟨f - 1, by have := fMembers_pos m; omega⟩
      rw [parseObjBody.eq_def]
      cases m with
      | nil =>
        have hws2 : skipWs (printMembers [] ++ '}' :: rest) = '}' :: rest := by
          simp only [printMembers, List.nil_append]
          exact skipWs_cons_of_not_ws _ (by decide)
        simp +decide [hws2]
      | cons kv m2 =>
        obtain ⟨k, v⟩ := kv
        obtain ⟨X, hX⟩ : ∃ X, printMembers ((k, v) :: m2) =
            printStr k ++ ':' :: printVal v ++ X := by
          cases m2 with
          | nil => exact ⟨[], by simp [printMembers]⟩
          | cons a b => exact ⟨',' :: printMembers (a :: b), by simp [printMembers]⟩
        have hsplit : printMembers ((k, v) :: m2) ++ '}' :: rest =
            '"' :: (escStr k ++ '"' :: (':' :: (printVal v ++ (X ++ '}' :: rest)))) := by
          rw [hX]; simp [printStr]
        rw [hsplit]
        have hws2 : skipWs ('"' :: (escStr k ++ '"' :: (':' :: (printVal v ++ (X ++ '}' :: rest)))))
            = '"' :: (escStr k ++ '"' :: (':' :: (printVal v ++ (X ++ '}' :: rest)))) :=
          skipWs_cons_of_not_ws _ (by decide)
        have hne2 : ¬('"' : Char) = '}' := by decide
        simp [hws2, hne2]
        rw [hsplit.symm]
        have hmem := (IH g (by omega)).2.1 ((k, v) :: m2) rest (by simp) hnfm (by omega)
        rw [hmem]
  · intro m rest hne hnf hfm
    obtain ⟨f, rfl⟩ : ∃ f, fuel = f + 1 := ⟨fuel - 1, by have := fMembers_pos m; omega⟩
    cases m with
    | nil => exact absurd rfl hne
    | cons kv m2 =>
      obtain ⟨k, v⟩ := kv
      have hnv : numFree v = true ∧ numFreeMembers m2 = true := by
        simpa [numFreeMembers, Bool.and_eq_true] using hnf
      have hfv : fVal v ≤ f ∧ fMembers m2 ≤ f := by
        simp [fMembers] at hfm
        have := fMembers_pos m2
        have := fVal_pos v
        omega
      cases m2 with
      | nil =>
        have hsplit : printMembers [(k, v)] ++ '}' :: rest =
            '"' :: (escStr k ++ '"' :: (':' :: (printVal v ++ '}' :: rest))) := by
          simp [printMembers, printStr]
        rw [parseMembers.eq_def, hsplit]
        have hws : skipWs ('"' :: (escStr k ++ '"' :: (':' :: (printVal v ++ '}' :: rest)))) =
            '"' :: (escStr k ++ '"' :: (':' :: (printVal v ++ '}' :: rest))) :=
          skipWs_cons_of_not_ws _ (by decide)
        have hkey := parseStrBody_escStr k (':' :: (printVal v ++ '}' :: rest))
        have hws2 : skipWs (':' :: (printVal v ++ '}' :: rest)) =
            ':' :: (printVal v ++ '}' :: rest) := skipWs_cons_of_not_ws _ (by decide)
        have hval := (IH f (by omega)).1 v ('}' :: rest) hnv.1 hfv.1
        have hws3 : skipWs ('}' :: rest) = '}' :: rest := skipWs_cons_of_not_ws _ (by decide)
        simp +decide [hws, hkey, hws2, hval, hws3]
      | cons kv2 m3 =>
        have hsplit : printMembers ((k, v) :: kv2 :: m3) ++ '}' :: rest =
            '"' :: (escStr k ++ '"' :: (':' ::
              (printVal v ++ ',' :: (printMembers (kv2 :: m3) ++ '}' :: rest)))) := by
          obtain ⟨k2, v2⟩ := kv2
          simp [printMembers, printStr]
        rw [parseMembers.eq_def, hsplit]
        have hws : skipWs ('"' :: (escStr k ++ '"' :: (':' ::
            (printVal v ++ ',' :: (printMembers (kv2 :: m3) ++ '}' :: rest))))) =
            '"' :: (escStr k ++ '"' :: (':' ::
            (printVal v ++ ',' :: (printMembers (kv2 :: m3) ++ '}' :: rest)))) :=
          skipWs_cons_of_not_ws _ (by decide)
        have hkey := parseStrBody_escStr k
          (':' :: (printVal v ++ ',' :: (printMembers (kv2 :: m3) ++ '}' :: rest)))
        have hws2 : skipWs (':' :: (printVal v ++ ',' :: (printMembers (kv2 :: m3) ++ '}' :: rest)))
            = ':' :: (printVal v ++ ',' :: (printMembers (kv2 :: m3) ++ '}' :: rest)) :=
          skipWs_cons_of_not_ws _ (by decide)
        have hval := (IH f (by omega)).1 v
          (',' :: (printMembers (kv2 :: m3) ++ '}' :: rest)) hnv.1 hfv.1
        have hws3 : skipWs (',' :: (printMembers (kv2 :: m3) ++ '}' :: rest)) =
            ',' :: (printMembers (kv2 :: m3) ++ '}' :: rest) :=
          skipWs_cons_of_not_ws _ (by decide)
        have hmem := (IH f (by omega)).2.1 (kv2 :: m3) rest (by simp) hnv.2 hfv.2
        simp +decide [hws, hkey, hws2, hval, hws3, hmem]
  · intro l rest hne hnf hfl
    obtain ⟨f, rfl⟩ : ∃ f, fuel = f + 1 := ⟨fuel - 1, by have := fElems_pos l; omega⟩
    cases l with
    | nil => exact absurd rfl hne
    | cons v l2 =>
      have hnv : numFree v = true ∧ numFreeElems l2 = true := by
        simpa [numFreeElems, Bool.and_eq_true] using hnf
      have hfv : fVal v ≤ f ∧ fElems l2 ≤ f := by
        simp [fElems] at hfl
        have := fElems_pos l2
        have := fVal_pos v
        omega
      cases l2 with
      | nil =>
        have hsplit : printElems [v] ++ ']' :: rest = printVal v ++ ']' :: rest := by
          simp [printElems]
        rw [parseElems.eq_def, hsplit]
        have hval := (IH f (by omega)).1 v (']' :: rest) hnv.1 hfv.1
        have hws : skipWs (']' :: rest) = ']' :: rest := skipWs_cons_of_not_ws _ (by decide)
        simp +decide [hval, hws]
      | cons v2 l3 =>
        have hsplit : printElems (v :: v2 :: l3) ++ ']' :: rest =
            printVal v ++ ',' :: (printElems (v2 :: l3) ++ ']' :: rest) := by
          simp [printElems]
        rw [parseElems.eq_def, hsplit]
        have hval := (IH f (by omega)).1 v
          (',' :: (printElems (v2 :: l3) ++ ']' :: rest)) hnv.1 hfv.1
        have hws : skipWs (',' :: (printElems (v2 :: l3) ++ ']' :: rest)) =
            ',' :: (printElems (v2 :: l3) ++ ']' :: rest) :=
          skipWs_cons_of_not_ws _ (by decide)
        have hel := (IH f (by omega)).2.2 (v2 :: l3) rest (by simp) hnv.2 hfv.2
        simp +decide [hval, hws, hel]

theorem jsonParse_printVal (v : JVal) (hnf : numFree v = true)
    (hfuel : fVal v ≤ 3 * (printVal v).length + 3) :
    jsonParse (printVal v) = some v := by
  have h := (parse_print_all (3 * (printVal v).length + 3)).1 v [] hnf hfuel
  rw [List.append_nil] at h
  simp [jsonParse, h, skipWs]

/-- Model of JS String.indexOf for a single character: index of the first
occurrence, or -1 when absent. -/
def jsIndexOf : List Char → Char → Int
  | [], _ => -1
  | x :: rest, c =>
    if x = c then 0
    else
      let r := jsIndexOf rest c
      if r = -1 then -1 else r + 1

/-- Model of JS String.lastIndexOf for a single character: index of the
last occurrence, or -1 when absent. -/
def jsLastIndexOf : List Char → Char → Int
  | [], _ => -1
  | x :: rest, c =>
    let r := jsLastIndexOf rest c
    if r = -1 then (if x = c then 0 else -1) else r + 1

/-- Clamp a JS string index into the range [0, length]. -/
def clampIdx (s : List Char) (i : Int) : Int :=
  if i < 0 then 0 else if i > (s.length : Int) then (s.length : Int) else i

/-- Model of JS String.substring: clamps both indices to the string and
swaps them when out of order. -/
def jsSubstring (s : List Char) (a b : Int) : List Char :=
  (s.take (max (clampIdx s a) (clampIdx s b)).toNat).drop
    (min (clampIdx s a) (clampIdx s b)).toNat

/-- The extractJSON function of src/index.js (lines 161-178): take the
substring from the first brace to one past the last closing brace and
JSON.parse it.  The JS try/catch converts any JSON.parse exception into a
null return (here: `none`), and the missing-brace branch also returns
null. -/
def extractJSON (str : List Char) : Option JVal :=
  let startIndex := jsIndexOf str '{'
  let endIndex := jsLastIndexOf str '}' + 1
  if startIndex ≠ -1 ∧ endIndex ≠ -1 ∧ endIndex > startIndex then
    jsonParse (jsSubstring str startIndex endIndex)
  else none

theorem jsIndexOf_head (c : Char) (t : List Char) : jsIndexOf (c :: t) c = 0 := by
  simp [jsIndexOf]

theorem jsLastIndexOf_append_singleton (l : List Char) (c : Char) :
    jsLastIndexOf (l ++ [c]) c = l.length := by
  induction l with
  | nil => simp [jsLastIndexOf]
  | cons x xs ih =>
    have hne : (xs.length : Int) ≠ -1 := by omega
    simp [jsLastIndexOf, ih, hne]

theorem clampIdx_zero (s : List Char) : clampIdx s 0 = 0 := by
  unfold clampIdx
  have h1 : ¬((0 : Int) < 0) := by omega
  have h2 : ¬((0 : Int) > (s.length : Int)) := by omega
  rw [if_neg h1, if_neg h2]

theorem clampIdx_len (s : List Char) : clampIdx s s.length = s.length := by
  unfold clampIdx
  have h3 : ¬((s.length : Int) < 0) := by omega
  have h4 : ¬((s.length : Int) > (s.length : Int)) := by omega
  rw [if_neg h3, if_neg h4]

theorem jsSubstring_full (s : List Char) : jsSubstring s 0 s.length = s := by
  unfold jsSubstring
  rw [clampIdx_zero, clampIdx_len]
  have h5 : max (0 : Int) (s.length : Int) = (s.length : Int) := max_eq_right (by omega)
  have h6 : min (0 : Int) (s.length : Int) = (0 : Int) := min_eq_left (by omega)
  rw [h5, h6]
  simp

theorem extractJSON_printVal_jobj (m : List (List Char × JVal))
    (hnf : numFree (.jobj m) = true)
    (hfuel : fVal (.jobj m) ≤ 3 * (printVal (.jobj m)).length + 3) :
    extractJSON (printVal (.jobj m)) = some (.jobj m) := by
  have hshape : printVal (.jobj m) = '{' :: printMembers m ++ ['}'] := by simp [printVal]
  have hidx : jsIndexOf (printVal (.jobj m)) '{' = 0 := by
    rw [hshape]
    exact jsIndexOf_head _ _
  have hlast : jsLastIndexOf (printVal (.jobj m)) '}' = ('{' :: printMembers m).length := by
    have h2 : printVal (.jobj m) = ('{' :: printMembers m) ++ ['}'] := by simpa using hshape
    rw [h2]
    exact jsLastIndexOf_append_singleton _ _
  have hlen : (printVal (.jobj m)).length = ('{' :: printMembers m).length + 1 := by
    rw [hshape]; simp
  unfold extractJSON
  rw [hidx, hlast]
  have hcond : ((0 : Int) ≠ -1 ∧ (('{' :: printMembers m).length : Int) + 1 ≠ -1 ∧
      (('{' :: printMembers m).length : Int) + 1 > 0) := by
    refine ⟨by omega, by omega, by omega⟩
  rw [if_pos hcond]
  have hsub : jsSubstring (printVal (.jobj m)) 0 ((('{' :: printMembers m).length : Int) + 1) =
      printVal (.jobj m) := by
    have : ((('{' :: printMembers m).length : Int) + 1) = ((printVal (.jobj m)).length : Int) := by
      rw [hlen]; push_cast; ring
    rw [this]
    exact jsSubstring_full _
  rw [hsub]
  exact jsonParse_printVal _ hnf hfuel

/-- A file record as it travels in the JSON wire format of src/index.js:
a file path and the complete file content (never a diff). -/
structure FileRecord where
  filepath : List Char
  code : List Char
deriving DecidableEq

/-- The FileSet of the specification (section 3): the parsed, trusted
set of file edits — an object with a `files` list of records. -/
structure FileSet where
  files : List FileRecord
deriving DecidableEq

/-- Canonical JSON form of one record, with the member order
(`filepath` then `code`) used throughout src/index.js. -/
def encodeRecord (r : FileRecord) : JVal :=
  .jobj [("filepath".data, .jstr r.filepath), ("code".data, .jstr r.code)]

/-- Canonical JSON form of a FileSet. -/
def fileSetToJson (fs : FileSet) : JVal :=
  .jobj [("files".data, .jarr (fs.files.map encodeRecord))]

/-- Serialization of a FileSet: JSON.stringify of its canonical JSON
form. -/
def serializeFileSet (fs : FileSet) : List Char := printVal (fileSetToJson fs)

/-- First member of a JSON object with the given key. -/
def lookupMember (k : List Char) : List (List Char × JVal) → Option JVal
  | [] => none
  | (k2, v) :: rest => if k2 = k then some v else lookupMember k rest

/-- Modelled from the spec (sections 3 and 4.4): decoding a JSON value
against the record schema — an object carrying string `filepath` and
`code` fields.  src/index.js has no explicit validation step (extractJSON
returns whatever JSON.parse produced, and writeFiles dereferences the
fields directly); this definition states the schema the spec's `parse`
contract promises, so the code can be compared against it. -/
def decodeRecord : JVal → Option FileRecord
  | .jobj m =>
    match lookupMember "filepath".data m, lookupMember "code".data m with
    | some (.jstr p), some (.jstr c) => some ⟨p, c⟩
    | _, _ => none
  | _ => none

/-- Modelled from the spec: decode each element of the `files` array as
a record, failing if any element fails. -/
def decodeRecords : List JVal → Option (List FileRecord)
  | [] => some []
  | v :: rest =>
    match decodeRecord v, decodeRecords rest with
    | some r, some rs => some (r :: rs)
    | _, _ => none

/-- Modelled from the spec: FileSet-schema decoding (an object with a
`files` array of records; see decodeRecord). -/
def decodeFileSet : JVal → Option FileSet
  | .jobj m =>
    match lookupMember "files".data m with
    | some (.jarr l) =>
      match decodeRecords l with
      | some rs => some ⟨rs⟩
      | none => none
    | _ => none
  | _ => none

/-- The spec's `parse` pipeline: the code's brace extraction followed by
the FileSet-schema decoding the spec promises. -/
def parseFileSet (text : List Char) : Option FileSet :=
  (extractJSON text).bind decodeFileSet

theorem numFree_encodeRecord (r : FileRecord) : numFree (encodeRecord r) = true := by
  simp [encodeRecord, numFree, numFreeMembers]

theorem numFreeElems_map_encode (l : List FileRecord) :
    numFreeElems (l.map encodeRecord) = true := by
  induction l with
  | nil => simp [numFreeElems]
  | cons r t ih => simp [numFreeElems, numFree_encodeRecord, ih]

theorem numFree_fileSetToJson (fs : FileSet) : numFree (fileSetToJson fs) = true := by
  simp [fileSetToJson, numFree, numFreeMembers, numFreeElems, numFreeElems_map_encode]

theorem fVal_encodeRecord (r : FileRecord) : fVal (encodeRecord r) = 7 := by
  simp [encodeRecord, fVal, fMembers]

theorem fElems_map_encode (l : List FileRecord) :
    fElems (l.map encodeRecord) = 8 * l.length + 1 := by
  induction l with
  | nil => simp [fElems]
  | cons r t ih =>
    simp [fElems, fVal_encodeRecord, ih]
    ring

theorem fVal_fileSetToJson (fs : FileSet) :
    fVal (fileSetToJson fs) = 8 * fs.files.length + 7 := by
  simp [fileSetToJson, fVal, fMembers, fElems_map_encode]
  ring

theorem printVal_jobj_len (m : List (List Char × JVal)) :
    (printVal (.jobj m)).length = (printMembers m).length + 2 := by
  simp [printVal]

theorem printElems_map_encode_len (l : List FileRecord) :
    3 * l.length ≤ (printElems (l.map encodeRecord)).length + 1 := by
  induction l with
  | nil => simp
  | cons r t ih =>
    have h2 : (printVal (encodeRecord r)).length =
        (printMembers [("filepath".data, .jstr r.filepath),
          ("code".data, .jstr r.code)]).length + 2 := printVal_jobj_len _
    cases t with
    | nil =>
      have h : printElems ((r :: []).map encodeRecord) = printVal (encodeRecord r) := by
        simp [printElems]
      rw [h, h2]
      simp only [List.length_cons, List.length_nil]
      omega
    | cons r2 t2 =>
      have h : printElems ((r :: r2 :: t2).map encodeRecord) =
          printVal (encodeRecord r) ++ ',' :: printElems ((r2 :: t2).map encodeRecord) := by
        simp [printElems]
      rw [h]
      simp only [List.length_append, List.length_cons, List.length_nil, h2] at *
      omega

theorem fVal_fileSetToJson_le (fs : FileSet) :
    fVal (fileSetToJson fs) ≤ 3 * (printVal (fileSetToJson fs)).length + 3 := by
  have h1 := fVal_fileSetToJson fs
  have h2 : (printVal (fileSetToJson fs)).length =
      (printStr "files".data).length + 1 +
        ((printElems (fs.files.map encodeRecord)).length + 2) + 2 := by
    simp [fileSetToJson, printVal, printMembers, printStr]
    ring
  have h3 : (printStr "files".data).length = 7 := by decide
  have h4 := printElems_map_encode_len fs.files
  omega

theorem decodeRecord_encodeRecord (r : FileRecord) : decodeRecord (encodeRecord r) = some r := by
  simp +decide [encodeRecord, decodeRecord, lookupMember]

theorem decodeRecords_map_encode (l : List FileRecord) :
    decodeRecords (l.map encodeRecord) = some l := by
  induction l with
  | nil => simp [decodeRecords]
  | cons r t ih => simp [decodeRecords, decodeRecord_encodeRecord, ih]

theorem decodeFileSet_fileSetToJson (fs : FileSet) :
    decodeFileSet (fileSetToJson fs) = some fs := by
  simp [fileSetToJson, decodeFileSet, lookupMember, decodeRecords_map_encode]

/-- C5: for every FileSet, the first-brace-to-last-brace extraction of
src/index.js followed by JSON decoding is a left inverse of
serialization: parse(serialize(fileSet)) returns the same FileSet. -/
theorem c5_parse_serialize (fs : FileSet) :
    parseFileSet (serializeFileSet fs) = some fs := by
  have hnf := numFree_fileSetToJson fs
  have hfuel := fVal_fileSetToJson_le fs
  have hx : extractJSON (printVal (fileSetToJson fs)) = some (fileSetToJson fs) :=
    extractJSON_printVal_jobj _ hnf hfuel
  simp [parseFileSet, serializeFileSet, hx, decodeFileSet_fileSetToJson]

/-- The EXCLUDE_DIRS list of src/index.js lines 11-34, in order. -/
def EXCLUDE_DIRS : List (List Char) :=
  ["node_modules".data, ".git".data, "__pycache__".data, ".pytest_cache".data,
   "dist".data, "build".data, ".svn".data, "vendor".data, "target".data,
   ".idea".data, ".vscode".data, "bin".data, "obj".data, "out".data,
   ".next".data, ".nuxt".data, "jspm_packages".data, "bower_components".data,
   "venv".data, ".mypy_cache".data, ".history".data, ".docker".data]

/-- A directory entry on disk: a regular file with its utf-8 text
content, or a directory with entries listed in the order readdirSync
returns them.  (statSync follows each entry, so an entry is exactly a
file or a directory here; symlinks are outside the claims.) -/
inductive FsEntry : Type where
  | file (name : List Char) (content : List Char) : FsEntry
  | dir (name : List Char) (entries : List FsEntry) : FsEntry

/-- The bare name of a directory entry, as readdirSync lists it. -/
def FsEntry.name : FsEntry → List Char
  | .file n _ => n
  | .dir n _ => n

/-- Node's path.join on posix for the calls made in getFiles: joining
the start directory "." with a name normalizes the leading dot away,
any other join inserts a slash. -/
def pathJoin (d n : List Char) : List Char :=
  if d = ".".data then n else d ++ '/' :: n

/-- The getFiles function of src/index.js lines 36-58, with the on-disk
tree made explicit: iterate over the entries of dir in readdirSync
order; the `ignoreDirs.includes(fileOrDir)` check skips any entry whose
bare name is in ignoreDirs before the entry's kind is examined; then
directories are recursed into and their records spread in place, and
regular files contribute a (joined path, content) record. -/
def getFiles (dir : List Char) (entries : List FsEntry)
    (ignoreDirs : List (List Char)) : List FileRecord :=
  match entries with
  | [] => []
  | e :: rest =>
    (if e.name ∈ ignoreDirs then []
     else
       match e with
       | .file n content => [⟨pathJoin dir n, content⟩]
       | .dir n sub => getFiles (pathJoin dir n) sub ignoreDirs) ++
      getFiles dir rest ignoreDirs

/-- The snapshot described by the words of claim C6: every file of the
tree that is not inside a directory whose bare name exactly matches an
excluded name, in traversal order, with verbatim content — the file's
own bare name is not filtered. -/
def claimedSnapshotC6 (dir : List Char) (entries : List FsEntry)
    (excluded : List (List Char)) : List FileRecord :=
  match entries with
  | [] => []
  | .file n content :: rest =>
    ⟨pathJoin dir n, content⟩ :: claimedSnapshotC6 dir rest excluded
  | .dir n sub :: rest =>
    (if n ∈ excluded then [] else claimedSnapshotC6 (pathJoin dir n) sub excluded) ++
      claimedSnapshotC6 dir rest excluded

/-- The snapshot described by the amended claim C6: every file of the
tree whose own bare name and all of whose enclosing directory names
avoid exact matches with the excluded names (a name merely containing an
excluded name as a substring is not filtered), in traversal order, with
verbatim content. -/
def amendedSnapshotC6 (dir : List Char) (entries : List FsEntry)
    (excluded : List (List Char)) : List FileRecord :=
  match entries with
  | [] => []
  | .file n content :: rest =>
    (if n ∈ excluded then [] else [⟨pathJoin dir n, content⟩]) ++
      amendedSnapshotC6 dir rest excluded
  | .dir n sub :: rest =>
    (if n ∈ excluded then [] else amendedSnapshotC6 (pathJoin dir n) sub excluded) ++
      amendedSnapshotC6 dir rest excluded

/-- C6 (counterexample): a directory holding one regular file named
`bin` — not inside any directory — yields an empty snapshot from
getFiles, while the claim's description contains that file: `bin` is in
EXCLUDE_DIRS and getFiles filters names before looking at kinds. -/
theorem c6_counterexample :
    getFiles ".".data [FsEntry.file "bin".data "x".data] EXCLUDE_DIRS = [] ∧
    claimedSnapshotC6 ".".data [FsEntry.file "bin".data "x".data] EXCLUDE_DIRS =
      [⟨"bin".data, "x".data⟩] := by
  refine ⟨?_, ?_⟩ <;> simp +decide [getFiles, claimedSnapshotC6, FsEntry.name]

/-- C6 (amended): getFiles produces exactly the amended snapshot: the
files whose own bare name and all enclosing directory names avoid exact
matches with the excluded names, in traversal order, verbatim content;
substring-only matches are not filtered. -/
theorem c6_amended (dir : List Char) (entries : List FsEntry)
    (excluded : List (List Char)) :
    getFiles dir entries excluded = amendedSnapshotC6 dir entries excluded := by
  induction dir, entries, excluded using getFiles.induct with
  | case1 dir excluded => simp [getFiles, amendedSnapshotC6]
  | case2 dir excluded e rest ih1 ih2 =>
    cases e with
    | file n content =>
      by_cases h : n ∈ excluded
      · simp [getFiles, amendedSnapshotC6, FsEntry.name, h, ih2]
      · simp [getFiles, amendedSnapshotC6, FsEntry.name, h, ih2]
    | dir n sub =>
      simp only [] at ih1
      by_cases h : n ∈ excluded
      · simp [getFiles, amendedSnapshotC6, FsEntry.name, h, ih2]
      · simp [getFiles, amendedSnapshotC6, FsEntry.name, h, ih1, ih2]

/-- C10: an entry whose bare name exactly matches the exclusion list
contributes nothing to the snapshot whatever its kind — in particular a
regular file named like an excluded directory is omitted: deleting that
entry from its directory leaves getFiles unchanged. -/
theorem c10_excluded_file_omitted (dir n content : List Char)
    (pre suf : List FsEntry) (ig : List (List Char)) (h : n ∈ ig) :
    getFiles dir (pre ++ FsEntry.file n content :: suf) ig =
      getFiles dir (pre ++ suf) ig := by
  induction pre with
  | nil => simp [getFiles, FsEntry.name, h]
  | cons e rest ih =>
    rw [List.cons_append, List.cons_append, getFiles.eq_def]
    conv_rhs => rw [getFiles.eq_def]
    simp only []
    rw [ih]

/-- C10 (witness): the theorem applied to a file named `bin` at the top
of the tree. -/
theorem c10_witness :
    "bin".data ∈ EXCLUDE_DIRS ∧
      getFiles ".".data ([] ++ FsEntry.file "bin".data "x".data :: []) EXCLUDE_DIRS =
        getFiles ".".data ([] ++ []) EXCLUDE_DIRS :=
  ⟨by decide, c10_excluded_file_omitted ".".data "bin".data "x".data [] [] EXCLUDE_DIRS
    (by decide)⟩

/-- Model of path.resolve(cwd, p) for the paths in scope: an absolute p
(leading slash) stands alone, a relative p is joined below cwd.
(Dot-segment normalization is not modelled; no claim involves it.) -/
def pathResolve (cwd p : List Char) : List Char :=
  match p with
  | '/' :: _ => p
  | _ => cwd ++ '/' :: p

/-- Model of path.dirname: everything before the last slash; "/" when
the last slash is leading; "." when there is no slash. -/
def dirname (p : List Char) : List Char :=
  let i := jsLastIndexOf p '/'
  if i = -1 then ".".data
  else if i = 0 then "/".data
  else p.take i.toNat

/-- Files on disk: association of paths to contents, updated in place. -/
def setFile : List (List Char × List Char) → List Char → List Char →
    List (List Char × List Char)
  | [], p, c => [(p, c)]
  | (p2, c2) :: rest, p, c =>
    if p2 = p then (p, c) :: rest else (p2, c2) :: setFile rest p c

/-- Content of a path on disk, if the file exists. -/
def lookupFile : List (List Char × List Char) → List Char → Option (List Char)
  | [], _ => none
  | (p2, c2) :: rest, p => if p2 = p then some c2 else lookupFile rest p

/-- Every ancestor of a directory path at each slash boundary, and the
path itself: what fs.mkdirSync with recursive: true brings into
existence. -/
def slashPrefixes (d : List Char) : List (List Char) :=
  ((List.range d.length).filterMap
    (fun i => if d.get? i = some '/' then some (d.take i) else none)) ++ [d]

/-- Disk state: existing files (path, content) and existing directories. -/
structure DiskState where
  files : List (List Char × List Char)
  dirs : List (List Char)

/-- One iteration of the writeFiles forEach (src/index.js lines
116-125): resolve the record's path against the working directory,
create the parent directory chain when missing, then write the record's
content as the complete new file body. -/
def writeOne (cwd : List Char) (st : DiskState) (f : FileRecord) : DiskState :=
  let filepath := pathResolve cwd f.filepath
  let dir := dirname filepath
  let dirs2 := if dir ∈ st.dirs then st.dirs else slashPrefixes dir ++ st.dirs
  ⟨setFile st.files filepath f.code, dirs2⟩

/-- The writeFiles function of src/index.js lines 115-126: the records
of the set are written in order (data.files.forEach). -/
def writeFiles (cwd : List Char) (data : FileSet) (st : DiskState) : DiskState :=
  data.files.foldl (writeOne cwd) st

theorem lookupFile_setFile_self (fsys : List (List Char × List Char)) (p c : List Char) :
    lookupFile (setFile fsys p c) p = some c := by
  induction fsys with
  | nil => simp [setFile, lookupFile]
  | cons e rest ih =>
    obtain ⟨p2, c2⟩ := e
    by_cases h : p2 = p
    · simp [setFile, lookupFile, h]
    · simp [setFile, lookupFile, h, ih]

theorem lookupFile_setFile_other (fsys : List (List Char × List Char)) (p q c : List Char)
    (h : q ≠ p) : lookupFile (setFile fsys q c) p = lookupFile fsys p := by
  induction fsys with
  | nil => simp [setFile, lookupFile, h]
  | cons e rest ih =>
    obtain ⟨p2, c2⟩ := e
    by_cases h2 : p2 = q
    · subst h2; simp [setFile, lookupFile, h]
    · simp [setFile, lookupFile, h2, ih]

theorem writeOne_preserves_file (cwd : List Char) (st : DiskState) (f : FileRecord)
    (p : List Char) (h : pathResolve cwd f.filepath ≠ p) :
    lookupFile (writeOne cwd st f).files p = lookupFile st.files p := by
  simp [writeOne, lookupFile_setFile_other _ _ _ _ h]

theorem writeFiles_preserves_file (cwd : List Char) (l : List FileRecord) (p : List Char) :
    ∀ st : DiskState, (∀ f ∈ l, pathResolve cwd f.filepath ≠ p) →
      lookupFile (List.foldl (writeOne cwd) st l).files p = lookupFile st.files p := by
  induction l with
  | nil => intro st _; simp
  | cons f rest ih =>
    intro st h
    simp only [List.foldl_cons]
    rw [ih _ (fun g hg => h g (List.mem_cons_of_mem f hg))]
    exact writeOne_preserves_file cwd st f p (h f (List.mem_cons_self f rest))

theorem writeOne_dirs_mono (cwd : List Char) (st : DiskState) (f : FileRecord)
    (d : List Char) (h : d ∈ st.dirs) : d ∈ (writeOne cwd st f).dirs := by
  simp only [writeOne]
  split_ifs <;> simp [h]

theorem writeFiles_dirs_mono (cwd : List Char) (l : List FileRecord) (d : List Char) :
    ∀ st : DiskState, d ∈ st.dirs → d ∈ (List.foldl (writeOne cwd) st l).dirs := by
  induction l with
  | nil => intro st h; simpa using h
  | cons f rest ih =>
    intro st h
    simp only [List.foldl_cons]
    exact ih _ (writeOne_dirs_mono cwd st f d h)

theorem self_mem_slashPrefixes (d : List Char) : d ∈ slashPrefixes d := by
  simp [slashPrefixes]

theorem writeOne_dir_created (cwd : List Char) (st : DiskState) (f : FileRecord) :
    dirname (pathResolve cwd f.filepath) ∈ (writeOne cwd st f).dirs := by
  simp only [writeOne]
  split_ifs with h
  · exact h
  · simp [self_mem_slashPrefixes]

/-- C8: applying a FileSet whose records resolve to pairwise distinct
paths stores, for every record, exactly the record's content at its
resolved path — a full overwrite of whatever the disk held — and the
record's parent directory exists afterwards.  The initial disk state is
arbitrary: an existing file at the path is clobbered, a missing one is
created. -/
theorem c8_writeFiles_stores_records (cwd : List Char) (st : DiskState) (data : FileSet)
    (r : FileRecord) (hmem : r ∈ data.files)
    (hnodup : (data.files.map (fun f => pathResolve cwd f.filepath)).Nodup) :
    lookupFile (writeFiles cwd data st).files (pathResolve cwd r.filepath) = some r.code ∧
    dirname (pathResolve cwd r.filepath) ∈ (writeFiles cwd data st).dirs := by
  unfold writeFiles
  obtain ⟨files⟩ := data
  simp only at hmem hnodup ⊢
  induction files generalizing st with
  | nil => simp at hmem
  | cons f rest ih =>
    simp only [List.foldl_cons]
    rcases List.mem_cons.mp hmem with hr | hr
    · subst hr
      constructor
      · rw [writeFiles_preserves_file]
        · simp [writeOne, lookupFile_setFile_self]
        · intro g hg
          simp only [List.map_cons, List.nodup_cons] at hnodup
          intro hEq
          exact hnodup.1 (hEq ▸ List.mem_map_of_mem (fun f => pathResolve cwd f.filepath) hg)
      · exact writeFiles_dirs_mono cwd rest _ _ (writeOne_dir_created cwd st r)
    · simp only [List.map_cons, List.nodup_cons] at hnodup
      exact ih _ hr hnodup.2

/-- C8 (witness): two records written onto a disk that already holds an
old file at one of the target paths. -/
theorem c8_witness :
    (⟨"a/b.txt".data, "new".data⟩ : FileRecord) ∈
      ([⟨"a/b.txt".data, "new".data⟩, ⟨"c.txt".data, "y".data⟩] : List FileRecord) ∧
    (([⟨"a/b.txt".data, "new".data⟩, ⟨"c.txt".data, "y".data⟩] : List FileRecord).map
      (fun f => pathResolve "/repo".data f.filepath)).Nodup ∧
    (lookupFile (writeFiles "/repo".data ⟨[⟨"a/b.txt".data, "new".data⟩,
        ⟨"c.txt".data, "y".data⟩]⟩
        ⟨[("/repo/a/b.txt".data, "old".data)], []⟩).files
      (pathResolve "/repo".data "a/b.txt".data) = some "new".data ∧
    dirname (pathResolve "/repo".data "a/b.txt".data) ∈
      (writeFiles "/repo".data ⟨[⟨"a/b.txt".data, "new".data⟩, ⟨"c.txt".data, "y".data⟩]⟩
        ⟨[("/repo/a/b.txt".data, "old".data)], []⟩).dirs) :=
  ⟨by decide, by decide,
    c8_writeFiles_stores_records "/repo".data ⟨[("/repo/a/b.txt".data, "old".data)], []⟩
      ⟨[⟨"a/b.txt".data, "new".data⟩, ⟨"c.txt".data, "y".data⟩]⟩
      ⟨"a/b.txt".data, "new".data⟩ (by decide) (by decide)⟩

/-- The usage message of src/index.js line 151. -/
def usageMessage : List Char := "Usage: cb <path_to_file> <modification_prompt>".data

/-- The argv handling of src/index.js lines 148-153 and 195:
process.argv destructures into the node path, the script path, and the
trailing modificationPrompt list; an empty list prints the usage message
and exits with code 1; otherwise the instruction sent in the request is
modificationPrompt.join(' '). -/
def cliInstruction (modificationPrompt : List String) : Except (List Char × Nat) String :=
  if modificationPrompt.length = 0 then .error (usageMessage, 1)
  else .ok (String.intercalate " " modificationPrompt)

/-- C9: zero trailing arguments is a usage error with exit code 1, and
otherwise the instruction is exactly the trailing arguments joined by
single spaces. -/
theorem c9_cli_instruction (args : List String) :
    cliInstruction args =
      if args = [] then .error (usageMessage, 1)
      else .ok (String.intercalate " " args) := by
  by_cases h : args = []
  · subst h; simp [cliInstruction]
  · have hlen : args.length ≠ 0 := by simpa [List.length_eq_zero] using h
    simp [cliInstruction, hlen, h]

/-- The ENDPOINT constant of src/index.js line 6. -/
def ENDPOINT : List Char := "https://43882-3000.2.codesphere.com/".data

/-- The API_KEY constant of src/index.js line 7 (empty in the source). -/
def API_KEY : List Char := "".data

/-- The LANGUAGE constant of src/index.js line 9. -/
def LANGUAGE : List Char := "javascript".data

/-- An HTTP request as assembled by buildReq: method, headers, and the
serialized JSON body. -/
structure HttpRequest where
  method : List Char
  headers : List (List Char × List Char)
  body : List Char
deriving DecidableEq

/-- The system-role message content of src/index.js line 91 (with the
LANGUAGE template interpolated, as the JS template literal does). -/
def systemContent : List Char :=
  "You are a code modification assistant. Your task is to help users by suggesting modifications and comments to the ".data
    ++ LANGUAGE ++
    " code files they provide based on the instructions given in the user_request. Please maintain the original functionality of the code as much as possible and make clear if a request cannot be fulfilled. Always finish your code, never provide todos. You are allowed to specify new files if the user did not provide any".data

/-- The response-shape example object of src/index.js lines 96-106,
stringified into the user_request text. -/
def formatExample : JVal :=
  .jobj [("files".data, .jarr [
    .jobj [("filepath".data, .jstr "<FILEPATH1_HERE>".data),
           ("code".data, .jstr "<CODE1_HERE>".data)],
    .jobj [("filepath".data, .jstr "<FILEPATH2_HERE>".data),
           ("code".data, .jstr "<CODE2_HERE>".data)]])]

/-- The user_request string of src/index.js line 96: the prompt followed
by the literal format instruction and the stringified example. -/
def userRequestString (prompt : List Char) : List Char :=
  prompt ++ ". You respond exclusively in the following format: ".data ++ printVal formatExample

/-- The buildReq function of src/index.js lines 78-113: a POST request
with content-type and bearer-authorization headers whose body is the
JSON of one system message and one user message (the model line is
commented out in the source).  The second parameter is the JS `files`
parameter; `none` models the JS value undefined, and JSON.stringify
omits an object key whose value is undefined, so no `files` member is
emitted in that case. -/
def buildReq (prompt : List Char) (files : Option JVal) : HttpRequest where
  method := "POST".data
  headers := [("Content-Type".data, "application/json".data),
              ("Authorization".data, "Bearer ".data ++ API_KEY)]
  body := printVal (.jobj [("messages".data, .jarr [
    .jobj [("role".data, .jstr "system".data),
           ("content".data, .jstr systemContent)],
    .jobj [("role".data, .jstr "user".data),
           ("content".data, .jstr (printVal (.jobj
             (("user_request".data, .jstr (userRequestString prompt)) ::
              (match files with
               | some f => [("files".data, f)]
               | none => [])))))]])])

/-- The callApi function of src/index.js lines 145-146: it declares a
single `prompt` parameter and calls buildReq(prompt) — buildReq's
`files` parameter therefore receives undefined (none). -/
def callApiRequest (prompt : List Char) : HttpRequest := buildReq prompt none

/-- The request issued by run on line 195: callApi(instruction joined
from argv, files).  JS drops the second argument silently, because
callApi's arity is one. -/
def runRequest (instruction : List Char) (snapshot : List FileRecord) : HttpRequest :=
  callApiRequest instruction

/-- C1: the completion request issued by run is the same whatever the
snapshot — the snapshot argument run passes to callApi never reaches
buildReq, so the user message carries no `files` member at all.  This
contradicts the claim that the request embeds the full snapshot (the
instruction text and the verbatim response-shape example are embedded;
the snapshot is not). -/
theorem c1_request_ignores_snapshot (instruction : List Char)
    (snap1 snap2 : List FileRecord) :
    runRequest instruction snap1 = runRequest instruction snap2 := rfl

/-- Observable events of one process invocation of src/index.js. -/
inductive RunEvent : Type where
  | gitStatusSpawned : RunEvent
  | snapshotTaken (snapshot : List FileRecord) : RunEvent
  | requestIssued (req : HttpRequest) : RunEvent
  | gitCallbackRan : RunEvent
  | exited (code : Nat) : RunEvent
  | parseFailed : RunEvent
  | writeFailed : RunEvent
  | filesWritten (payload : JVal) : RunEvent
  | committed : RunEvent

/-- The run function of src/index.js lines 184-215 as its sequence of
observable events, given the directory tree, whether `git status
--porcelain` reports changes (dirty), the instruction, and the
successive completion texts the endpoint returns (an empty list cuts the
observation off while the run is still in flight, since the retry loop
is unbounded).

Scheduling facts fixed by Node's event loop and embedded here:
abortIfUncommited (line 60) only spawns the git subprocess — exec is
asynchronous, so its callback cannot run before the synchronous and
microtask work of run already in progress: getFiles (synchronous fs
calls throughout) has scanned the directory and fetch has issued the
HTTP request by then.  The callback runs once the local child exits,
before the remote HTTP response is processed; on a dirty tree it calls
process.exit(1) (line 73), which terminates the process, so nothing
follows it.  On parse failure (lines 198-202) run re-invokes itself from
the top — spawning a new git check, re-scanning the directory and
re-issuing the request; a writeFiles exception (lines 204-210) is caught
and triggers the same re-invocation.  A write attempt succeeds exactly
when the decoded payload carries the FileSet shape (a `files` array of
records with string filepath and code fields); otherwise the
forEach/resolve/writeFileSync chain throws.  On success the interval is
cleared and gitCommit runs (line 212). -/
def runEvents (tree : List FsEntry) (dirty : Bool) (instruction : List Char) :
    List (List Char) → List RunEvent
  | [] => []
  | resp :: rest =>
    let snap := getFiles ".".data tree EXCLUDE_DIRS
    let attempt := [RunEvent.gitStatusSpawned, RunEvent.snapshotTaken snap,
      RunEvent.requestIssued (runRequest instruction snap), RunEvent.gitCallbackRan]
    if dirty then attempt ++ [RunEvent.exited 1]
    else
      attempt ++
        match extractJSON resp with
        | none => RunEvent.parseFailed :: runEvents tree dirty instruction rest
        | some j =>
          match decodeFileSet j with
          | some _ => [RunEvent.filesWritten j, RunEvent.committed]
          | none => RunEvent.writeFailed :: runEvents tree dirty instruction rest

/-- C2: on a dirty working tree the process does exit with code 1, but
only after the directory has been scanned and the completion request
issued: exec spawns `git status` asynchronously, and its callback — the
only place that aborts — cannot run before run's synchronous scan and
request.  This contradicts the claim that no directory scan and no HTTP
request occur in such a run. -/
theorem c2_dirty_run_scans_and_requests_before_exit (tree : List FsEntry)
    (instruction resp : List Char) (rest : List (List Char)) :
    runEvents tree true instruction (resp :: rest) =
      [RunEvent.gitStatusSpawned,
       RunEvent.snapshotTaken (getFiles ".".data tree EXCLUDE_DIRS),
       RunEvent.requestIssued
         (runRequest instruction (getFiles ".".data tree EXCLUDE_DIRS)),
       RunEvent.gitCallbackRan,
       RunEvent.exited 1] := by
  simp [runEvents]

/-- Number of directory scans (snapshots taken) in a trace. -/
def countScans : List RunEvent → Nat
  | [] => 0
  | RunEvent.snapshotTaken _ :: rest => 1 + countScans rest
  | _ :: rest => countScans rest

/-- A response whose brace candidate decodes to JSON of the wrong shape
(no `files` array). -/
def wrongShapeResp : List Char := "Sure! \x7b\"notfiles\":[]\x7d done".data

/-- A response with no parseable JSON between its braces. -/
def unparsableResp : List Char := "oops no json here".data

/-- A response whose payload is a well-formed empty FileSet. -/
def emptyFileSetResp : List Char := "\x7b\"files\":[]\x7d".data

/-- C7 (counterexample): a run whose first response fails to parse and
whose second succeeds scans the directory twice — the snapshot is
rebuilt by the retry, refuting the claim that it is created exactly once
per run and never rebuilt. -/
theorem c7_counterexample :
    countScans (runEvents [FsEntry.file "a.txt".data "x".data] false "p".data
        [unparsableResp, emptyFileSetResp]) = 2 ∧
    countScans (runEvents [FsEntry.file "a.txt".data "x".data] false "p".data
        [unparsableResp, emptyFileSetResp]) ≠ 1 := by
  constructor <;> simp +decide [runEvents, countScans, unparsableResp, emptyFileSetResp,
    getFiles, FsEntry.name]

/-- C7 (amended): on every ParseFailure the retry re-runs the whole
pipeline with the same unchanged instruction: the git check is spawned
again, the directory is re-scanned (a fresh snapshot event), and the
request is re-issued, before the remaining responses are processed. -/
theorem c7_amended_retry_rescans (tree : List FsEntry) (instruction resp : List Char)
    (rest : List (List Char)) (h : extractJSON resp = none) :
    runEvents tree false instruction (resp :: rest) =
      [RunEvent.gitStatusSpawned,
       RunEvent.snapshotTaken (getFiles ".".data tree EXCLUDE_DIRS),
       RunEvent.requestIssued
         (runRequest instruction (getFiles ".".data tree EXCLUDE_DIRS)),
       RunEvent.gitCallbackRan,
       RunEvent.parseFailed] ++ runEvents tree false instruction rest := by
  simp [runEvents, h]

/-- C7 (witness): the amended theorem applied to a concrete tree and an
unparsable first response. -/
theorem c7_amended_witness :
    extractJSON unparsableResp = none ∧
    runEvents [FsEntry.file "a.txt".data "x".data] false "p".data
        [unparsableResp] =
      [RunEvent.gitStatusSpawned,
       RunEvent.snapshotTaken
         (getFiles ".".data [FsEntry.file "a.txt".data "x".data] EXCLUDE_DIRS),
       RunEvent.requestIssued (runRequest "p".data
         (getFiles ".".data [FsEntry.file "a.txt".data "x".data] EXCLUDE_DIRS)),
       RunEvent.gitCallbackRan,
       RunEvent.parseFailed] ++
        runEvents [FsEntry.file "a.txt".data "x".data] false "p".data [] :=
  ⟨rfl, c7_amended_retry_rescans [FsEntry.file "a.txt".data "x".data] "p".data
    unparsableResp [] rfl⟩

/-- C4 (counterexample): a response whose brace candidate is well-formed
JSON of the wrong shape (no `files` array).  extractJSON returns the
decoded object — not ParseFailure (none) — refuting the claim that every
schema-level decoding failure yields ParseFailure. -/
theorem c4_counterexample :
    extractJSON wrongShapeResp = some (JVal.jobj [("notfiles".data, JVal.jarr [])]) ∧
    decodeFileSet (JVal.jobj [("notfiles".data, JVal.jarr [])]) = none := by
  exact ⟨rfl, rfl⟩

/-- C4 (amended): whenever the response fails FileSet decoding at either
stage — no JSON candidate (ParseFailure) or a decoded object of the
wrong shape (which src/index.js only discovers when writeFiles throws) —
the run is not terminated: the attempt ends in a retry of the remaining
pipeline and no exit event occurs in it. -/
theorem c4_amended_decode_failure_not_fatal (tree : List FsEntry)
    (instruction resp : List Char) (rest : List (List Char))
    (h : (extractJSON resp).bind decodeFileSet = none) :
    ∃ failEv,
      (failEv = RunEvent.parseFailed ∨ failEv = RunEvent.writeFailed) ∧
      runEvents tree false instruction (resp :: rest) =
        [RunEvent.gitStatusSpawned,
         RunEvent.snapshotTaken (getFiles ".".data tree EXCLUDE_DIRS),
         RunEvent.requestIssued
           (runRequest instruction (getFiles ".".data tree EXCLUDE_DIRS)),
         RunEvent.gitCallbackRan,
         failEv] ++ runEvents tree false instruction rest := by
  cases hx : extractJSON resp with
  | none =>
    exact ⟨RunEvent.parseFailed, Or.inl rfl, by simp [runEvents, hx]⟩
  | some j =>
    have hd : decodeFileSet j = none := by
      rw [hx] at h
      simpa using h
    exact ⟨RunEvent.writeFailed, Or.inr rfl, by simp [runEvents, hx, hd]⟩

/-- C4 (witness): the amended theorem applied to the wrong-shape
response on a concrete tree. -/
theorem c4_amended_witness :
    (extractJSON wrongShapeResp).bind decodeFileSet = none ∧
    ∃ failEv,
      (failEv = RunEvent.parseFailed ∨ failEv = RunEvent.writeFailed) ∧
      runEvents [FsEntry.file "a.txt".data "x".data] false "p".data
          [wrongShapeResp] =
        [RunEvent.gitStatusSpawned,
         RunEvent.snapshotTaken
           (getFiles ".".data [FsEntry.file "a.txt".data "x".data] EXCLUDE_DIRS),
         RunEvent.requestIssued (runRequest "p".data
           (getFiles ".".data [FsEntry.file "a.txt".data "x".data] EXCLUDE_DIRS)),
         RunEvent.gitCallbackRan,
         failEv] ++ runEvents [FsEntry.file "a.txt".data "x".data] false "p".data [] :=
  ⟨rfl, c4_amended_decode_failure_not_fatal [FsEntry.file "a.txt".data "x".data]
    "p".data wrongShapeResp [] rfl⟩

theorem jsIndexOf_spec (c : Char) (s : List Char) :
    jsIndexOf s c = -1 ∨
      (0 ≤ jsIndexOf s c ∧ ∃ t, s.drop (jsIndexOf s c).toNat = c :: t) := by
  induction s with
  | nil => left; rfl
  | cons x rest ih =>
    by_cases h : x = c
    · right
      subst h
      exact ⟨by simp [jsIndexOf], ⟨rest, by simp [jsIndexOf]⟩⟩
    · rcases ih with h2 | ⟨h2a, t, h2b⟩
      · left; simp [jsIndexOf, h, h2]
      · right
        have hne : jsIndexOf rest c ≠ -1 := by omega
        have hjs : jsIndexOf (x :: rest) c = jsIndexOf rest c + 1 := by
          simp [jsIndexOf, h, hne]
        rw [hjs]
        refine ⟨by omega, ⟨t, ?_⟩⟩
        have htn : (jsIndexOf rest c + 1).toNat = (jsIndexOf rest c).toNat + 1 := by omega
        rw [htn, List.drop_succ_cons]
        exact h2b

theorem jsLastIndexOf_bounds (s : List Char) (c : Char) :
    jsLastIndexOf s c < (s.length : Int) ∧ -1 ≤ jsLastIndexOf s c := by
  induction s with
  | nil => simp [jsLastIndexOf]
  | cons x rest ih =>
    by_cases h : jsLastIndexOf rest c = -1
    · by_cases h2 : x = c
      · simp [jsLastIndexOf, h, h2] <;> omega
      · simp [jsLastIndexOf, h, h2] <;> omega
    · simp [jsLastIndexOf, h] <;> push_cast <;> omega

theorem jsSubstring_eq_drop_take (s : List Char) (a b : Int) (ha : 0 ≤ a) (hb : a < b)
    (hble : b ≤ (s.length : Int)) :
    jsSubstring s a b = (s.take b.toNat).drop a.toNat := by
  unfold jsSubstring clampIdx
  have h1 : ¬(a < 0) := by omega
  have h2 : ¬(a > (s.length : Int)) := by omega
  have h3 : ¬(b < 0) := by omega
  have h4 : ¬(b > (s.length : Int)) := by omega
  rw [if_neg h1, if_neg h2, if_neg h3, if_neg h4]
  have h5 : max a b = b := max_eq_right (by omega)
  have h6 : min a b = a := min_eq_left (by omega)
  rw [h5, h6]

theorem jsSubstring_head (s : List Char) (a b : Int) (c : Char) (t : List Char)
    (ha : 0 ≤ a) (hb : a < b) (hble : b ≤ (s.length : Int))
    (hdrop : s.drop a.toNat = c :: t) :
    ∃ u, jsSubstring s a b = c :: u := by
  rw [jsSubstring_eq_drop_take s a b ha hb hble]
  rw [List.drop_take b.toNat a.toNat s, hdrop]
  have hpos : 1 ≤ b.toNat - a.toNat := by omega
  obtain ⟨k, hk⟩ : ∃ k, b.toNat - a.toNat = k + 1 := ⟨b.toNat - a.toNat - 1, by omega⟩
  rw [hk]
  exact ⟨t.take k, by simp⟩

theorem parseObjBody_shape (f : Nat) (s : List Char) (v : JVal) (r : List Char)
    (h : parseObjBody f s = some (v, r)) : ∃ m, v = .jobj m := by
  match f with
  | 0 => simp [parseObjBody] at h
  | g + 1 =>
    cases hw : skipWs s with
    | nil =>
      simp only [parseObjBody, hw] at h
      exact Option.noConfusion h
    | cons c rest =>
      simp only [parseObjBody, hw] at h
      by_cases hc : c = '}'
      · rw [if_pos hc] at h
        simp at h
        exact ⟨[], h.1.symm⟩
      · rw [if_neg hc] at h
        obtain ⟨p, _, hv⟩ := Option.map_eq_some'.mp h
        exact ⟨p.1, (congrArg Prod.fst hv).symm⟩

theorem jsonParse_brace_jobj (t : List Char) (v : JVal)
    (h : jsonParse ('{' :: t) = some v) : ∃ m, v = .jobj m := by
  unfold jsonParse at h
  obtain ⟨F, hF⟩ : ∃ F, 3 * (('{' :: t).length) + 3 = F + 1 :=
    ⟨3 * (('{' :: t).length) + 2, by omega⟩
  rw [hF] at h
  cases hp : parseVal (F + 1) ('{' :: t) with
  | none =>
    rw [hp] at h
    exact Option.noConfusion h
  | some pr =>
    rw [hp] at h
    obtain ⟨v2, r⟩ := pr
    have hv2 : ∃ m, v2 = .jobj m := by
      have hws : skipWs ('{' :: t) = '{' :: t := skipWs_cons_of_not_ws _ (by decide)
      simp only [parseVal, hws] at hp
      rw [if_pos trivial] at hp
      exact parseObjBody_shape F t v2 r hp
    have h2 : (if skipWs r = [] then some v2 else none) = some v := h
    by_cases hr : skipWs r = []
    · rw [if_pos hr] at h2
      obtain rfl : v2 = v := Option.some.inj h2
      exact hv2
    · rw [if_neg hr] at h2
      exact Option.noConfusion h2

/-- C3 (counterexample): well-formed JSON that is not a FileSet — the
code's parse returns the decoded object, which is neither a ParseFailure
(null) nor a valid FileSet, refuting the claim that one of the two is
always returned. -/
theorem c3_counterexample :
    extractJSON "\x7b\"x\":\"y\"\x7d".data =
      some (JVal.jobj [("x".data, JVal.jstr "y".data)]) ∧
    decodeFileSet (JVal.jobj [("x".data, JVal.jstr "y".data)]) = none :=
  ⟨rfl, rfl⟩

/-- C3 (amended): the code's parse never throws on any text input — for
every string it returns either ParseFailure (null) or a decoded JSON
object, with no guarantee that the object is a valid FileSet: the
brace-candidate substring starts with a brace, so a successful JSON.parse
of it always yields an object. -/
theorem c3_amended_parse_total (s : List Char) :
    extractJSON s = none ∨ ∃ m, extractJSON s = some (JVal.jobj m) := by
  unfold extractJSON
  by_cases hcond : jsIndexOf s '{' ≠ -1 ∧ jsLastIndexOf s '}' + 1 ≠ -1 ∧
      jsLastIndexOf s '}' + 1 > jsIndexOf s '{'
  · rw [if_pos hcond]
    obtain ⟨h1, _, h3⟩ := hcond
    rcases jsIndexOf_spec '{' s with hni | ⟨hge, t, hdrop⟩
    · exact absurd hni h1
    · have hlast := jsLastIndexOf_bounds s '}'
      have hble : jsLastIndexOf s '}' + 1 ≤ (s.length : Int) := by omega
      obtain ⟨u, hu⟩ := jsSubstring_head s _ _ '{' t hge h3 hble hdrop
      rw [hu]
      cases hjp : jsonParse ('{' :: u) with
      | none => left; rfl
      | some v =>
        obtain ⟨m, hm⟩ := jsonParse_brace_jobj u v hjp
        right
        exact ⟨m, by rw [hm]⟩
  · rw [if_neg hcond]
    left
    rfl

end CodeBuddy
